import Mathlib

/-!
# Verification of the proof-session maintenance tools

Shallow embedding of the repository's Python sources:

* `cleanProofTree.py` — the Tree Pruner (`clean_proof_tree`) over an XML
  element tree, modelled by the inductive type `Node`;
* `src/checkAllFilesHaveProof.py` — the Coverage Auditor
  (`check_whyml_files_proven`);
* `src/checkStatementProofConv.py` — the Statement/Proof Separation Auditor
  (`remove_comments`, `check_lemma_axiom_in_lemmas`, `check_proofs_for_lemmas`).

File I/O (reading the session file, listing directories) is modelled by
passing the file contents / directory listing as arguments.
-/

/-! ## ProofTree model

An XML element: tag, attribute list (document order), children (document
order).  Mirrors `xml.etree.ElementTree.Element`.
-/

inductive Node where
| mk (tag : String) (attrs : List (String × String)) (children : List Node)

def Node.tag : Node → String
| .mk t _ _ => t

def Node.attrs : Node → List (String × String)
| .mk _ a _ => a

def Node.children : Node → List Node
| .mk _ _ cs => cs


def isTransf (c : Node) : Bool := c.tag == "transf"

def isProof (c : Node) : Bool := c.tag == "proof"

/-- `child.tag in {"proof", "transf"}` in `cleanProofTree.py` line 24. -/
def isTP (c : Node) : Bool := isProof c || isTransf c

/-! ## Tree Pruner (`cleanProofTree.py`, `clean_proof_tree`)

The Python loop (lines 12–18) over a goal's direct children:

    for child in goal:
        if child.tag == "transf":
            transf_child = child
            break
        elif child.tag == "proof" and proof_child is not None:
            proof_child = child

is embedded literally as `scanGoalChildren`, threading the state
`(transf_child, proof_child)`.  Note the guard `proof_child is not None`:
`proof_child` starts as `None` and the condition is therefore never true, so
`proof_child` remains `None` forever (see `scanGoalChildren_snd_none`).
-/

def scanGoalChildren : List Node → Option Node × Option Node → Option Node × Option Node
| [], st => st
| c :: cs, (t, p) =>
  if isTransf c then (some c, p)
  else if isProof c && p.isSome then scanGoalChildren cs (t, some c)
  else scanGoalChildren cs (t, p)

/-- `child_to_keep = transf_child if transf_child is not None else proof_child`
(`cleanProofTree.py` line 19). -/
def child_to_keep (cs : List Node) : Option Node :=
  (scanGoalChildren cs (none, none)).1.orElse (fun _ => (scanGoalChildren cs (none, none)).2)

/-- The removal loop (`cleanProofTree.py` lines 23–25): every direct child
that is not (the object) `child_to_keep` and whose tag is `proof` or `transf`
is removed.  `child != child_to_keep` is Python object identity; on a parsed
tree each child is a distinct object, and `child_to_keep` is the first
`transf` child, so exactly the first `transf` child (by position) survives
among the `proof`/`transf` children. -/
def removeNonCanonical : List Node → List Node
| [] => []
| c :: cs =>
  if isTransf c then c :: cs.filter (fun x => !(isTP x))
  else if isProof c then removeNonCanonical cs
  else c :: removeNonCanonical cs

/-- Per-goal child rewriting of `clean_proof_tree`: the removal loop is
guarded by `if child_to_keep is not None` (line 22), so when no `transf`
child exists nothing at all is removed. -/
def pruneGoalChildren (cs : List Node) : List Node :=
  match child_to_keep cs with
  | none => cs
  | some _ => removeNonCanonical cs

/-- Recursive worker for `clean_proof_tree`.  The Python code collects
`root.findall(".//goal")` (all proper-descendant goals) up front and rewrites
each goal's children independently; since the rewriting of a goal depends
only on the tags of its direct children — which rewriting nested goals never
changes — this is equivalent to the recursive formulation used here
(children first, then the goal's own child list). -/
def cleanNode : Node → Node
| .mk t a cs =>
  .mk t a (if t == "goal" then pruneGoalChildren (cs.attach.map (fun ⟨c, _⟩ => cleanNode c))
           else cs.attach.map (fun ⟨c, _⟩ => cleanNode c))

/-- `clean_proof_tree(tree)`: rewrites every goal element that is a proper
descendant of the root.  (XPath `.//goal` does not select the root itself;
the session root is the `why3session` element.) -/
def clean_proof_tree : Node → Node
| .mk t a cs => .mk t a (cs.map cleanNode)

/-- `root.iter()`: the element itself followed by all descendants, in
document order. -/
def iterNodes : Node → List Node
| .mk t a cs => .mk t a cs :: (cs.attach.map (fun ⟨c, _⟩ => iterNodes c)).flatten


/-! ## String helpers shared by the auditors

WhyML sources and filenames are ASCII; character-level operations model the
corresponding Python `str` operations.
-/

/-- Python `s.endswith(suf)`. -/
def endsWithL (suf s : List Char) : Bool := suf.reverse.isPrefixOf s.reverse

/-- Python `pat in s` (substring containment). -/
def containsSub (pat : List Char) : List Char → Bool
| [] => pat.isEmpty
| s@(_ :: rest) => pat.isPrefixOf s || containsSub pat rest

/-- Python `\w` on ASCII input (`re` also matches further Unicode word
characters, which do not occur in this repository's sources). -/
def isWordChar (c : Char) : Bool := c.isAlphanum || c == '_'

/-- Python `\s` (ASCII whitespace classes). -/
def isPySpace (c : Char) : Bool :=
  c == ' ' || c == '\t' || c == '\n' || c == '\r' || c == '\x0b' || c == '\x0c'

/-! ## Coverage Auditor (`src/checkAllFilesHaveProof.py`)

`extract_mlw_filenames_from_session` walks `root.iter()` collecting the
`name` attribute of every `path` element ending in `.mlw` (a `path` element
of a parsed session always carries a `name` attribute; an element without
one would make the Python raise `KeyError`, outside the modelled domain).
The directory listing is passed as a parameter (`os.listdir('src/')`).
-/

def lookupAttr (n : Node) (k : String) : Option String := n.attrs.lookup k

def extract_mlw_filenames_from_session (root : Node) : Finset String :=
  ((iterNodes root).filterMap (fun n =>
    if n.tag == "path" then
      match lookupAttr n "name" with
      | some v => if endsWithL ".mlw".data v.data then some v else none
      | none => none
    else none)).toFinset

def extract_mlw_filenames_from_directory (listing : List String) : Finset String :=
  (listing.filter (fun f => endsWithL ".mlw".data f.data)).toFinset

/-- Outcome of `check_whyml_files_proven`: `passOk` records the PASS/FAIL
banner, the two `Finset`s are the printed sub-lists (an empty set prints
nothing), and `exitCode` is the process exit status (`exit(1)` on FAIL,
normal return — status 0 — on PASS). -/
structure CovResult where
  passOk : Bool
  extraInSession : Finset String
  extraInDirectory : Finset String
  exitCode : Nat

/-- `relevant_directory_filenames`: twoHonestParties.mlw is run for the
simple payment test and is the hard-coded exemption. -/
def relevantDirFilenames (listing : List String) : Finset String :=
  extract_mlw_filenames_from_directory listing \ {"twoHonestParties.mlw"}

def check_whyml_files_proven (root : Node) (listing : List String) : CovResult :=
  if extract_mlw_filenames_from_session root = relevantDirFilenames listing then
    ⟨true, ∅, ∅, 0⟩
  else
    ⟨false,
     extract_mlw_filenames_from_session root \ relevantDirFilenames listing,
     relevantDirFilenames listing \ extract_mlw_filenames_from_session root,
     1⟩

/-! ## Separation Auditor (`src/checkStatementProofConv.py`)

### Comment removal (`remove_comments`)

`re.sub(r'\(\*.*?\*\)', '', content, flags=re.DOTALL)`: scanning left to
right, each match starts at an occurrence of the open marker and — because
`.*?` is lazy — extends to the NEAREST following close marker, across line
boundaries (`DOTALL`) and ignoring any nested open marker.  An open marker
with no later close marker matches nothing and is kept.  `rcAux` performs
the same left-to-right scan; one unit of fuel is spent per step and every
step consumes at least one character, so `s.length` fuel always suffices.
-/

/-- Index of the first occurrence of the close marker `*)`. -/
def findCloseIdx : List Char → Option Nat
| [] => none
| c :: rest =>
  if c = '*' ∧ rest.head? = some ')' then some 0
  else (findCloseIdx rest).map (· + 1)

def rcAux : Nat → List Char → List Char
| 0, s => s
| _ + 1, [] => []
| f + 1, c :: rest =>
  if c = '(' ∧ rest.head? = some '*' then
    match findCloseIdx rest.tail with
    | some j => rcAux f (rest.tail.drop (j + 2))
    | none => c :: rest
  else c :: rcAux f rest

def removeCommentsL (s : List Char) : List Char := rcAux s.length s

/-- `remove_comments(content)`. -/
def remove_comments (content : String) : String := String.mk (removeCommentsL content.data)

/-! ### Check A (`check_lemma_axiom_in_lemmas`)

The Python function removes comments, then scans `content.splitlines()`
keeping a `current_module` variable: a line matching `module\s+(\w+)\s*` at
its start (via `re.match`) updates it, and a line containing the substring
`'val lemma'` or `'axiom'` appends an error unless `current_module` is a
truthy string ending in `Lemmas` or `Spec`.  (The `modules`/`declarations`
`findall` results computed by the Python code are unused and are omitted.)
The embedding name drops the reserved word from the Python name
`check_lemma_axiom_in_lemmas`.
-/

/-- `re.match(r'module\s+(\w+)\s*', line)`, returning the captured group. -/
def matchModuleDecl (l : List Char) : Option (List Char) :=
  if ("module".data).isPrefixOf l then
    let r := l.drop 6
    let ws := r.takeWhile isPySpace
    if ws.isEmpty then none
    else
      let name := (r.drop ws.length).takeWhile isWordChar
      if name.isEmpty then none else some name
  else none

/-- `'val lemma' in line or 'axiom' in line`. -/
def containsTok (l : List Char) : Bool :=
  containsSub "val lemma".data l || containsSub "axiom".data l

/-- The f-string of line 41 (its closing quote is missing in the source). -/
def errA (path : String) (m : List Char) : String :=
  "Error in " ++ path ++ ": 'val lemma' or 'axiom' found in non-Lemmas module '" ++ String.mk m

/-- Error possibly produced for one line, given the current module AFTER the
line's own module match has been applied. -/
def lineError (path : String) (l : List Char) (cur : Option (List Char)) : Option String :=
  if containsTok l then
    match cur with
    | some m =>
      if endsWithL "Lemmas".data m || endsWithL "Spec".data m then none
      else some (errA path m)
    | none => none
  else none

/-- The per-line loop of lines 34–41, threading `current_module`. -/
def scanA (path : String) : List (List Char) → Option (List Char) → List String
| [], _ => []
| l :: rest, cur =>
  let cur2 := (matchModuleDecl l).or cur
  (lineError path l cur2).toList ++ scanA path rest cur2

/-- Python `str.splitlines` restricted to `'\n'` separators (the sources use
Unix line endings; `splitlines` additionally drops a trailing empty line,
which neither matches a module pattern nor contains a token). -/
def splitLinesCh (s : List Char) : List (List Char) := s.splitOn '\n'

/-- `check_lemma_axiom_in_lemmas(file_path)` with the file's text passed as
`content`. -/
def check_lemma_axm_in_lemmas (path content : String) : List String :=
  scanA path (splitLinesCh (removeCommentsL content.data)) none

/-- Declarative "current module" at line `i`: the most recent line among
`lines[0..i]` matching a module declaration at line start. -/
def currentModuleAt (lines : List (List Char)) (i : Nat) : Option (List Char) :=
  ((lines.take (i + 1)).reverse).findSome? matchModuleDecl

/-- Declarative reading of Check A: one error per line that contains a
declaration token while the current module exists and does not end in
`Lemmas`/`Spec`. -/
def declarativeErrsA (path : String) (lines : List (List Char)) : List String :=
  (List.range lines.length).filterMap
    (fun i => lineError path (lines.getD i []) (currentModuleAt lines i))

/-! ### Check B (`check_proofs_for_lemmas`)

NOTE: this function matches its two regexes against the RAW file content —
it never calls `remove_comments`.

`re.findall(r'module\s+(\w+Lemmas)\b', content)`: a match needs the literal
`module` (at any position, also inside a longer word), at least one
whitespace character, and then the maximal word-character run `W`; greedy
backtracking of `\w+` together with the trailing `\b` force the whole run to
be captured, so the position matches exactly when `W` ends in `Lemmas` and
is strictly longer than `Lemmas` itself (`\w+` needs one extra character).
Matches are non-overlapping, scanning left to right.
-/

/-- Try the `Lemmas`-module pattern at the start of `s`; on success return
the captured module name and the remainder of the text after the match. -/
def matchLemmasAt (s : List Char) : Option (List Char × List Char) :=
  if ("module".data).isPrefixOf s then
    let r := s.drop 6
    let ws := r.takeWhile isPySpace
    if ws.isEmpty then none
    else
      let r2 := r.drop ws.length
      let w := r2.takeWhile isWordChar
      if endsWithL "Lemmas".data w && decide (6 < w.length) then some (w, r2.drop w.length)
      else none
  else none

def scanLemmasAux : Nat → List Char → List (List Char)
| 0, _ => []
| _ + 1, [] => []
| f + 1, s@(_ :: rest) =>
  match matchLemmasAt s with
  | some (w, rem) => w :: scanLemmasAux f rem
  | none => scanLemmasAux f rest

/-- `lemmas_modules = re.findall(r'module\s+(\w+Lemmas)\b', content)`. -/
def findLemmasModules (content : String) : List String :=
  (scanLemmasAux content.data.length content.data).map String.mk

/-- Longest `k` such that the first `k` characters of the word run `w` have
the shape `\w+Lemmas` — the greedy capture of `(\w+Lemmas)` WITHOUT a
trailing `\b`, which may stop in the middle of the word run. -/
def lemmasCapLen (w : List Char) : Option Nat :=
  ((List.range (w.length + 1)).reverse).find?
    (fun k => endsWithL "Lemmas".data (w.take k) && decide (6 < k))

/-- Try `module\s+(\w+Proofs)\s*:\s*(\w+Lemmas)` at the start of `s`; on
success return both captured groups and the remainder after the match (the
match ends with group 2, possibly inside a longer word run). -/
def matchProofsAt (s : List Char) : Option ((List Char × List Char) × List Char) :=
  if ("module".data).isPrefixOf s then
    let r := s.drop 6
    let ws := r.takeWhile isPySpace
    if ws.isEmpty then none
    else
      let r2 := r.drop ws.length
      let w1 := r2.takeWhile isWordChar
      if endsWithL "Proofs".data w1 && decide (6 < w1.length) then
        let r3 := (r2.drop w1.length).dropWhile isPySpace
        match r3 with
        | ':' :: r4 =>
          let r5 := r4.dropWhile isPySpace
          let w2 := r5.takeWhile isWordChar
          match lemmasCapLen w2 with
          | some k => some ((w1, w2.take k), r5.drop k)
          | none => none
        | _ => none
      else none
  else none

def scanProofsAux : Nat → List Char → List (List Char × List Char)
| 0, _ => []
| _ + 1, [] => []
| f + 1, s@(_ :: rest) =>
  match matchProofsAt s with
  | some (pr, rem) => pr :: scanProofsAux f rem
  | none => scanProofsAux f rest

/-- `proofs_modules = re.findall(r'module\s+(\w+Proofs)\s*:\s*(\w+Lemmas)', content)`. -/
def findProofsPairs (content : String) : List (String × String) :=
  (scanProofsAux content.data.length content.data).map
    (fun pr => (String.mk pr.1, String.mk pr.2))

/-- Python `str.replace(old, new)`: replace EVERY non-overlapping occurrence,
left to right (not only a suffix). -/
def pyReplaceAux : Nat → List Char → List Char → List Char → List Char
| 0, s, _, _ => s
| _ + 1, [], _, _ => []
| f + 1, s@(c :: rest), old, new =>
  if old.isPrefixOf s then new ++ pyReplaceAux f (s.drop old.length) old new
  else c :: pyReplaceAux f rest old new

def pyReplace (s old new : String) : String :=
  String.mk (pyReplaceAux s.data.length s.data old.data new.data)

/-- `proofs_dict = {proof: lemma for proof, lemma in proofs_modules}` followed
by `proofs_dict[k]`: for duplicate keys the LAST pair wins, hence lookup on
the reversed association list. -/
def proofsDictLookup (pairs : List (String × String)) (k : String) : Option String :=
  pairs.reverse.lookup k

/-- The f-string of line 69. -/
def errB (path lemmasName : String) : String :=
  "Error in " ++ path ++ ": No corresponding Proofs module for Lemmas module '"
    ++ lemmasName ++ "'"

/-- `check_proofs_for_lemmas(file_path)` with the file's text passed as
`content`. -/
def check_proofs_for_lemmas (path content : String) : List String :=
  (findLemmasModules content).filterMap (fun m =>
    if proofsDictLookup (findProofsPairs content) (pyReplace m "Lemmas" "Proofs") = some m
    then none
    else some (errB path m))

/-! ## Concrete session trees and file contents used in claim instances -/

def proofA : Node :=
  Node.mk "proof" [("prover", "0")] [Node.mk "result" [("status", "valid"), ("steps", "12")] []]

def proofB : Node := Node.mk "proof" [("prover", "1")] []

def transfA : Node := Node.mk "transf" [("name", "split_vc")] []

def transfB : Node := Node.mk "transf" [("name", "inline_goal")] []

def labelA : Node := Node.mk "label" [("name", "expl")] []

/-- A goal proved only by direct prover calls: two `proof` children, no `transf`. -/
def goalTwoProofs : Node := Node.mk "goal" [("name", "G1")] [proofA, proofB]

def rootTwoProofs : Node := Node.mk "why3session" [] [goalTwoProofs]

/-- A goal with a `proof` child, two `transf` children and one other child. -/
def goalWithTransf : Node := Node.mk "goal" [("name", "G2")] [proofA, transfA, transfB, labelA]

def rootWithTransf : Node := Node.mk "why3session" [] [goalWithTransf]

def pathNodeA : Node := Node.mk "path" [("name", "a.mlw")] []

def sessionRootA : Node := Node.mk "why3session" [] [Node.mk "file" [] [pathNodeA]]

def listingA : List String := ["b.mlw", "twoHonestParties.mlw", "notes.txt"]

/-- The `Lemmas` module name contains `Lemmas` twice; suffix replacement and
`str.replace` disagree on it. -/
def contentC8 : String := "module LemmasAbcLemmas\nmodule LemmasAbcProofs : LemmasAbcLemmas"

def contentC8w : String := "module FooLemmas"

/-- A `module ...Lemmas` declaration that is entirely inside a block comment. -/
def contentC9 : String := "(* module FooLemmas *)"

/-- A declaration token on a line before the first module declaration. -/
def contentC10 : String := "axiom positive\nmodule Counter"

/-! ## General lemmas -/
/-- Induction over `Node` giving the hypothesis for every child. -/
theorem node_induction (p : Node → Prop)
    (h : ∀ t a cs, (∀ c ∈ cs, p c) → p (Node.mk t a cs)) : ∀ n, p n := by
  intro n
  refine @Node.rec (fun m => p m) (fun cs => ∀ c ∈ cs, p c) ?_ ?_ ?_ n
  · intro t a cs ih
    exact h t a cs ih
  · intro c hc
    exact absurd hc (List.not_mem_nil c)
  · intro hd tl ph ptl c hc
    cases hc with
    | head => exact ph
    | tail _ hmem => exact ptl _ hmem
theorem cleanNode_eq (t : String) (a : List (String × String)) (cs : List Node) :
    cleanNode (Node.mk t a cs) =
      Node.mk t a (if t == "goal" then pruneGoalChildren (cs.map cleanNode)
                   else cs.map cleanNode) := by
  simp [cleanNode, List.map_attach]

theorem iterNodes_eq (t : String) (a : List (String × String)) (cs : List Node) :
    iterNodes (Node.mk t a cs) = Node.mk t a cs :: (cs.map iterNodes).flatten := by
  simp [iterNodes, List.map_attach]

/-! ### Basic pruner lemmas -/

theorem tag_cleanNode : ∀ n, (cleanNode n).tag = n.tag := by
  intro n
  cases n with
  | mk t a cs =>
    rw [cleanNode_eq]
    rfl

theorem attrs_cleanNode : ∀ n, (cleanNode n).attrs = n.attrs := by
  intro n
  cases n with
  | mk t a cs =>
    rw [cleanNode_eq]
    rfl

theorem isTransf_cleanNode (c : Node) : isTransf (cleanNode c) = isTransf c := by
  unfold isTransf
  rw [tag_cleanNode]

theorem isProof_cleanNode (c : Node) : isProof (cleanNode c) = isProof c := by
  unfold isProof
  rw [tag_cleanNode]

theorem isTP_cleanNode (c : Node) : isTP (cleanNode c) = isTP c := by
  unfold isTP
  rw [isTransf_cleanNode, isProof_cleanNode]

theorem scanGoalChildren_snd_none (cs : List Node) (t : Option Node) :
    (scanGoalChildren cs (t, none)).2 = none := by
  induction cs generalizing t with
  | nil => rfl
  | cons c cs ih =>
    unfold scanGoalChildren
    by_cases hc : isTransf c = true
    · simp [hc]
    · simp [hc, ih]

theorem scanGoalChildren_fst (cs : List Node) :
    (scanGoalChildren cs (none, none)).1 = cs.find? isTransf := by
  induction cs with
  | nil => rfl
  | cons c cs ih =>
    unfold scanGoalChildren
    by_cases hc : isTransf c = true
    · simp [hc, List.find?_cons_of_pos _ hc]
    · simp [hc, List.find?_cons_of_neg _ hc, ih]

theorem child_to_keep_eq_find (cs : List Node) :
    child_to_keep cs = cs.find? isTransf := by
  unfold child_to_keep
  rw [scanGoalChildren_fst, scanGoalChildren_snd_none]
  cases h : cs.find? isTransf <;> rfl

/-! ### Behaviour of the removal pass -/

theorem removeNonCanonical_cons_transf (x : Node) (xs : List Node)
    (hx : isTransf x = true) :
    removeNonCanonical (x :: xs) = x :: xs.filter (fun y => !(isTP y)) := by
  unfold removeNonCanonical
  rw [if_pos hx]

theorem removeNonCanonical_cons_proof (x : Node) (xs : List Node)
    (hx : isTransf x = false) (hp : isProof x = true) :
    removeNonCanonical (x :: xs) = removeNonCanonical xs := by
  unfold removeNonCanonical
  rw [if_neg (by simp [hx]), if_pos hp]
  cases xs <;> rfl

theorem removeNonCanonical_cons_other (x : Node) (xs : List Node)
    (hx : isTransf x = false) (hp : isProof x = false) :
    removeNonCanonical (x :: xs) = x :: removeNonCanonical xs := by
  unfold removeNonCanonical
  rw [if_neg (by simp [hx]), if_neg (by simp [hp])]
  cases xs <;> rfl

theorem removeNonCanonical_filter_TP (l : List Node) (c : Node)
    (h : l.find? isTransf = some c) :
    (removeNonCanonical l).filter isTP = [c] := by
  induction l with
  | nil => simp at h
  | cons x xs ih =>
    by_cases hx : isTransf x = true
    · rw [List.find?_cons_of_pos _ hx] at h
      injection h with h
      subst h
      unfold removeNonCanonical
      rw [if_pos hx]
      have htp : isTP x = true := by
        unfold isTP
        rw [hx, Bool.or_true]
      rw [List.filter_cons_of_pos htp]
      have : (xs.filter (fun y => !(isTP y))).filter isTP = [] := by
        rw [List.filter_filter]
        apply List.filter_eq_nil_iff.mpr
        intro a _
        cases hys : isTP a <;> simp [hys]
      rw [this]
    · rw [List.find?_cons_of_neg _ hx] at h
      unfold removeNonCanonical
      rw [if_neg hx]
      by_cases hp : isProof x = true
      · rw [if_pos hp]
        exact ih h
      · rw [if_neg hp]
        have htp : isTP x = false := by
          unfold isTP
          simp only [Bool.not_eq_true] at hx hp
          rw [hx, hp]
          rfl
        rw [List.filter_cons_of_neg (by rw [htp]; exact Bool.false_ne_true)]
        exact ih h

theorem removeNonCanonical_sublist (l : List Node) :
    (removeNonCanonical l).Sublist l := by
  induction l with
  | nil => exact List.Sublist.refl []
  | cons x xs ih =>
    unfold removeNonCanonical
    by_cases hx : isTransf x = true
    · rw [if_pos hx]
      exact List.Sublist.cons₂ x (List.filter_sublist xs)
    · rw [if_neg hx]
      by_cases hp : isProof x = true
      · rw [if_pos hp]
        exact List.Sublist.cons x ih
      · rw [if_neg hp]
        exact List.Sublist.cons₂ x ih

theorem mem_removeNonCanonical_of_not_tp (l : List Node) (c : Node)
    (hc : isTP c = false) (hmem : c ∈ l) : c ∈ removeNonCanonical l := by
  induction l with
  | nil => simp at hmem
  | cons x xs ih =>
    unfold removeNonCanonical
    by_cases hx : isTransf x = true
    · rw [if_pos hx]
      cases hmem with
      | head => exact List.mem_cons_self _ _
      | tail _ hm =>
        exact List.mem_cons_of_mem _ (List.mem_filter.mpr ⟨hm, by rw [hc]; rfl⟩)
    · rw [if_neg hx]
      by_cases hp : isProof x = true
      · rw [if_pos hp]
        cases hmem with
        | head =>
          exfalso
          unfold isTP at hc
          rw [hp] at hc
          simp at hc
        | tail _ hm => exact ih hm
      · rw [if_neg hp]
        cases hmem with
        | head => exact List.mem_cons_self _ _
        | tail _ hm => exact List.mem_cons_of_mem _ (ih hm)

theorem removeNonCanonical_find_transf (l : List Node) (c : Node)
    (h : l.find? isTransf = some c) :
    (removeNonCanonical l).find? isTransf = some c := by
  induction l with
  | nil => simp at h
  | cons x xs ih =>
    unfold removeNonCanonical
    by_cases hx : isTransf x = true
    · rw [List.find?_cons_of_pos _ hx] at h
      rw [if_pos hx, List.find?_cons_of_pos _ hx]
      exact h
    · rw [List.find?_cons_of_neg _ hx] at h
      rw [if_neg hx]
      by_cases hp : isProof x = true
      · rw [if_pos hp]
        exact ih h
      · rw [if_neg hp, List.find?_cons_of_neg _ hx]
        exact ih h

theorem removeNonCanonical_idem (l : List Node) (c : Node)
    (h : l.find? isTransf = some c) :
    removeNonCanonical (removeNonCanonical l) = removeNonCanonical l := by
  induction l with
  | nil => simp at h
  | cons x xs ih =>
    by_cases hx : isTransf x = true
    · rw [removeNonCanonical_cons_transf x xs hx,
          removeNonCanonical_cons_transf x _ hx]
      have : (xs.filter (fun y => !(isTP y))).filter (fun y => !(isTP y))
          = xs.filter (fun y => !(isTP y)) := by
        apply List.filter_eq_self.mpr
        intro a ha
        exact (List.mem_filter.mp ha).2
      rw [this]
    · rw [List.find?_cons_of_neg _ hx] at h
      rw [Bool.not_eq_true] at hx
      by_cases hp : isProof x = true
      · rw [removeNonCanonical_cons_proof x xs hx hp]
        exact ih h
      · rw [Bool.not_eq_true] at hp
        rw [removeNonCanonical_cons_other x xs hx hp,
            removeNonCanonical_cons_other x _ hx hp, ih h]

/-! ### Behaviour of `pruneGoalChildren` -/

theorem pruneGoalChildren_of_no_transf (cs : List Node)
    (h : cs.find? isTransf = none) : pruneGoalChildren cs = cs := by
  unfold pruneGoalChildren
  rw [child_to_keep_eq_find, h]

theorem pruneGoalChildren_of_transf (cs : List Node) (c : Node)
    (h : cs.find? isTransf = some c) :
    pruneGoalChildren cs = removeNonCanonical cs := by
  unfold pruneGoalChildren
  rw [child_to_keep_eq_find, h]

theorem pruneGoalChildren_sublist (cs : List Node) :
    (pruneGoalChildren cs).Sublist cs := by
  unfold pruneGoalChildren
  cases child_to_keep cs with
  | none => exact List.Sublist.refl cs
  | some c => exact removeNonCanonical_sublist cs

theorem mem_pruneGoalChildren_of_not_tp (cs : List Node) (c : Node)
    (hc : isTP c = false) (hmem : c ∈ cs) : c ∈ pruneGoalChildren cs := by
  unfold pruneGoalChildren
  cases child_to_keep cs with
  | none => exact hmem
  | some x => exact mem_removeNonCanonical_of_not_tp cs c hc hmem

theorem pruneGoalChildren_idem (cs : List Node) :
    pruneGoalChildren (pruneGoalChildren cs) = pruneGoalChildren cs := by
  cases h : cs.find? isTransf with
  | none =>
    rw [pruneGoalChildren_of_no_transf cs h, pruneGoalChildren_of_no_transf cs h]
  | some c =>
    rw [pruneGoalChildren_of_transf cs c h,
        pruneGoalChildren_of_transf _ c (removeNonCanonical_find_transf cs c h),
        removeNonCanonical_idem cs c h]

/-! ### `cleanNode` preserves tags, so pruning commutes with it -/

theorem find_transf_map_cleanNode (cs : List Node) :
    (cs.map cleanNode).find? isTransf = (cs.find? isTransf).map cleanNode := by
  rw [List.find?_map]
  have : isTransf ∘ cleanNode = isTransf := by
    funext x
    exact isTransf_cleanNode x
  rw [this]

theorem filter_notTP_map_cleanNode (cs : List Node) :
    (cs.map cleanNode).filter (fun y => !(isTP y))
      = (cs.filter (fun y => !(isTP y))).map cleanNode := by
  rw [List.filter_map]
  have : (fun y => !(isTP y)) ∘ cleanNode = (fun y => !(isTP y)) := by
    funext x
    simp only [Function.comp_apply, isTP_cleanNode]
  rw [this]

theorem removeNonCanonical_map_cleanNode (cs : List Node) :
    removeNonCanonical (cs.map cleanNode) = (removeNonCanonical cs).map cleanNode := by
  induction cs with
  | nil => rfl
  | cons x xs ih =>
    rw [List.map_cons]
    by_cases hx : isTransf x = true
    · have hx' : isTransf (cleanNode x) = true := by rw [isTransf_cleanNode]; exact hx
      rw [removeNonCanonical_cons_transf _ _ hx', removeNonCanonical_cons_transf _ _ hx,
          List.map_cons, filter_notTP_map_cleanNode]
    · rw [Bool.not_eq_true] at hx
      have hx' : isTransf (cleanNode x) = false := by rw [isTransf_cleanNode]; exact hx
      by_cases hp : isProof x = true
      · have hp' : isProof (cleanNode x) = true := by rw [isProof_cleanNode]; exact hp
        rw [removeNonCanonical_cons_proof _ _ hx' hp',
            removeNonCanonical_cons_proof _ _ hx hp, ih]
      · rw [Bool.not_eq_true] at hp
        have hp' : isProof (cleanNode x) = false := by rw [isProof_cleanNode]; exact hp
        rw [removeNonCanonical_cons_other _ _ hx' hp',
            removeNonCanonical_cons_other _ _ hx hp, List.map_cons, ih]

theorem pruneGoalChildren_map_cleanNode (cs : List Node) :
    pruneGoalChildren (cs.map cleanNode) = (pruneGoalChildren cs).map cleanNode := by
  cases h : cs.find? isTransf with
  | none =>
    have h' : (cs.map cleanNode).find? isTransf = none := by
      rw [find_transf_map_cleanNode, h]
      rfl
    rw [pruneGoalChildren_of_no_transf _ h', pruneGoalChildren_of_no_transf _ h]
  | some c =>
    have h' : (cs.map cleanNode).find? isTransf = some (cleanNode c) := by
      rw [find_transf_map_cleanNode, h]
      rfl
    rw [pruneGoalChildren_of_transf _ _ h', pruneGoalChildren_of_transf _ _ h,
        removeNonCanonical_map_cleanNode]

/-! ### Idempotence of the per-node rewriting -/

theorem cleanNode_idem : ∀ n, cleanNode (cleanNode n) = cleanNode n := by
  apply node_induction
  intro t a cs ih
  rw [cleanNode_eq]
  by_cases ht : (t == "goal") = true
  · rw [if_pos ht, cleanNode_eq, if_pos ht]
    rw [pruneGoalChildren_map_cleanNode, pruneGoalChildren_idem,
        ← pruneGoalChildren_map_cleanNode, List.map_map]
    have hmm : cs.map (cleanNode ∘ cleanNode) = cs.map cleanNode :=
      List.map_congr_left (fun c hc => ih c hc)
    rw [hmm]
  · rw [if_neg ht, cleanNode_eq, if_neg ht, List.map_map]
    have hmm : cs.map (cleanNode ∘ cleanNode) = cs.map cleanNode :=
      List.map_congr_left (fun c hc => ih c hc)
    rw [hmm]

/-! ### Check A agrees with the declarative "last module declaration" reading -/

theorem filterMap_cons_toList {α β : Type} (f : α → Option β) (a : α) (l : List α) :
    List.filterMap f (a :: l) = (f a).toList ++ List.filterMap f l := by
  cases h : f a <;> simp [List.filterMap_cons, h]

theorem currentModuleAt_zero (l : List Char) (ls : List (List Char)) :
    currentModuleAt (l :: ls) 0 = matchModuleDecl l := by
  unfold currentModuleAt
  cases h : matchModuleDecl l <;> simp [List.findSome?, h]

theorem currentModuleAt_succ (l : List Char) (ls : List (List Char)) (i : Nat) :
    currentModuleAt (l :: ls) (i + 1) = (currentModuleAt ls i).or (matchModuleDecl l) := by
  unfold currentModuleAt
  rw [List.take_succ_cons, List.reverse_cons, List.findSome?_append]
  congr 1
  cases h : matchModuleDecl l <;> simp [List.findSome?, h]

theorem scanA_eq_declarative (path : String) (lines : List (List Char)) (cur : Option (List Char)) :
    scanA path lines cur =
      (List.range lines.length).filterMap
        (fun i => lineError path (lines.getD i []) ((currentModuleAt lines i).or cur)) := by
  induction lines generalizing cur with
  | nil => rfl
  | cons l ls ih =>
    show (lineError path l ((matchModuleDecl l).or cur)).toList
        ++ scanA path ls ((matchModuleDecl l).or cur) = _
    rw [List.length_cons, List.range_succ_eq_map, filterMap_cons_toList, List.filterMap_map]
    have h0 : lineError path ((l :: ls).getD 0 []) ((currentModuleAt (l :: ls) 0).or cur)
        = lineError path l ((matchModuleDecl l).or cur) := by
      rw [List.getD_cons_zero, currentModuleAt_zero]
    rw [h0]
    congr 1
    rw [ih ((matchModuleDecl l).or cur)]
    apply List.filterMap_congr
    intro i _
    simp only [Function.comp_apply, List.getD_cons_succ, currentModuleAt_succ, Option.or_assoc]

/-! ## Claims about the Tree Pruner -/

/-- Claim C1, counterexample.  The claim says a Goal with zero `Transf`
children loses all its `Proof` children under `clean_proof_tree`.  On
`rootTwoProofs` — whose only goal has two `proof` children and no `transf`
child — `clean_proof_tree` is the identity: `child_to_keep` is `None`
(`proof_child` can never be assigned), and the removal loop is guarded by
`if child_to_keep is not None`, so both `proof` children survive. -/
theorem pruner_no_transf_counterexample :
    goalTwoProofs.children.countP isTransf = 0 ∧
    clean_proof_tree rootTwoProofs = rootTwoProofs ∧
    ((clean_proof_tree rootTwoProofs).children.getD 0 rootTwoProofs).children.countP isTP = 2 := by
  have h : clean_proof_tree rootTwoProofs = rootTwoProofs := by
    simp [rootTwoProofs, goalTwoProofs, proofA, proofB, clean_proof_tree, cleanNode_eq,
          pruneGoalChildren, child_to_keep, scanGoalChildren, isTransf, isProof, isTP,
          Node.tag, removeNonCanonical, Option.orElse]
  refine ⟨by decide, h, ?_⟩
  rw [h]
  decide

/-- Claim C1, amended.  For every Goal node whose children include no
`Transf`, running the Tree Pruner removes nothing from that Goal: its child
list is kept in full (each child itself recursively pruned); in particular
all its `Proof` children survive. -/
theorem pruner_no_transf_keeps_children (a : List (String × String)) (cs : List Node)
    (h : ∀ c ∈ cs, isTransf c = false) :
    (cleanNode (Node.mk "goal" a cs)).children = cs.map cleanNode := by
  rw [cleanNode_eq, if_pos (by rfl : ("goal" == "goal") = true)]
  show pruneGoalChildren (cs.map cleanNode) = _
  apply pruneGoalChildren_of_no_transf
  have hn : cs.find? isTransf = none :=
    List.find?_eq_none.mpr (fun x hx => by rw [h x hx]; exact Bool.false_ne_true)
  rw [find_transf_map_cleanNode, hn]
  rfl

/-- Witness for `pruner_no_transf_keeps_children`. -/
theorem pruner_no_transf_keeps_children_witness :
    (∀ c ∈ [proofA, proofB], isTransf c = false) ∧
    (cleanNode (Node.mk "goal" [("name", "G1")] [proofA, proofB])).children
      = [proofA, proofB].map cleanNode :=
  ⟨by decide, pruner_no_transf_keeps_children _ _ (by decide)⟩

/-- Claim C2.  For every Goal node with at least one `Transf` child, the Tree
Pruner retains exactly the first `Transf` child in document order
(`find?` returns the first match) and removes every other `Transf`/`Proof`
child: the only `Transf`/`Proof` node among the surviving children is that
first `Transf` child (recursively pruned). -/
theorem pruner_keeps_first_transf (a : List (String × String)) (cs : List Node) (c : Node)
    (h : cs.find? isTransf = some c) :
    ((cleanNode (Node.mk "goal" a cs)).children).filter isTP = [cleanNode c] := by
  rw [cleanNode_eq, if_pos (by rfl : ("goal" == "goal") = true)]
  show (pruneGoalChildren (cs.map cleanNode)).filter isTP = _
  have h' : (cs.map cleanNode).find? isTransf = some (cleanNode c) := by
    rw [find_transf_map_cleanNode, h]
    rfl
  rw [pruneGoalChildren_of_transf _ _ h']
  exact removeNonCanonical_filter_TP _ _ h'

/-- Witness for `pruner_keeps_first_transf`. -/
theorem pruner_keeps_first_transf_witness :
    ([proofA, transfA, transfB, labelA].find? isTransf = some transfA) ∧
    ((cleanNode (Node.mk "goal" [("name", "G2")] [proofA, transfA, transfB, labelA])).children).filter isTP
      = [cleanNode transfA] :=
  ⟨rfl, pruner_keeps_first_transf _ _ _ rfl⟩

/-- Auxiliary for the amended C3: what pruning guarantees about one child
list. -/
theorem pruneGoalChildren_countP (l : List Node) :
    (pruneGoalChildren l).countP isTransf ≤ 1 ∧
    ((pruneGoalChildren l).any isTransf = true → (pruneGoalChildren l).countP isTP = 1) := by
  cases h : l.find? isTransf with
  | none =>
    rw [pruneGoalChildren_of_no_transf l h]
    constructor
    · have h0 : l.countP isTransf = 0 :=
        List.countP_eq_zero.mpr (fun x hx => List.find?_eq_none.mp h x hx)
      omega
    · intro hany
      obtain ⟨x, hx, hpx⟩ := List.any_eq_true.mp hany
      exact absurd hpx (List.find?_eq_none.mp h x hx)
  | some c =>
    rw [pruneGoalChildren_of_transf l c h]
    have h1 : (removeNonCanonical l).countP isTP = 1 := by
      rw [List.countP_eq_length_filter, removeNonCanonical_filter_TP l c h]
      rfl
    refine ⟨?_, fun _ => h1⟩
    calc (removeNonCanonical l).countP isTransf
        ≤ (removeNonCanonical l).countP isTP :=
          List.countP_mono_left (fun x _ hx => by unfold isTP; rw [hx]; simp)
      _ = 1 := h1

/-- Every node of a pruned subtree is the pruning of some node. -/
theorem mem_iterNodes_cleanNode : ∀ n, ∀ m ∈ iterNodes (cleanNode n), ∃ k, m = cleanNode k := by
  apply node_induction
  intro t a cs ih m hm
  rw [cleanNode_eq] at hm
  by_cases ht : (t == "goal") = true
  · rw [if_pos ht, iterNodes_eq] at hm
    cases hm with
    | head =>
      refine ⟨Node.mk t a cs, ?_⟩
      rw [cleanNode_eq, if_pos ht]
    | tail _ hm' =>
      obtain ⟨li, hli, hmli⟩ := List.mem_flatten.mp hm'
      obtain ⟨ch, hch, rfl⟩ := List.mem_map.mp hli
      have hch' : ch ∈ cs.map cleanNode :=
        (pruneGoalChildren_sublist (cs.map cleanNode)).subset hch
      obtain ⟨c, hc, rfl⟩ := List.mem_map.mp hch'
      exact ih c hc m hmli
  · rw [if_neg ht, iterNodes_eq] at hm
    cases hm with
    | head =>
      refine ⟨Node.mk t a cs, ?_⟩
      rw [cleanNode_eq, if_neg ht]
    | tail _ hm' =>
      obtain ⟨li, hli, hmli⟩ := List.mem_flatten.mp hm'
      obtain ⟨ch, hch, rfl⟩ := List.mem_map.mp hli
      obtain ⟨c, hc, rfl⟩ := List.mem_map.mp hch
      exact ih c hc m hmli

/-- Claim C3, counterexample.  After pruning `rootTwoProofs`, its goal node
still has two `proof` children, violating "at most one `Transf`/`Proof`
child per Goal". -/
theorem pruner_at_most_one_counterexample :
    ¬ (∀ m ∈ iterNodes (clean_proof_tree rootTwoProofs),
        m.tag = "goal" → m.children.countP isTP ≤ 1) := by
  intro hall
  have h : clean_proof_tree rootTwoProofs = rootTwoProofs := by
    simp [rootTwoProofs, goalTwoProofs, proofA, proofB, clean_proof_tree, cleanNode_eq,
          pruneGoalChildren, child_to_keep, scanGoalChildren, isTransf, isProof, isTP,
          Node.tag, removeNonCanonical, Option.orElse]
  have hmem : goalTwoProofs ∈ iterNodes (clean_proof_tree rootTwoProofs) := by
    rw [h]
    show goalTwoProofs ∈ iterNodes (Node.mk "why3session" [] [goalTwoProofs])
    rw [iterNodes_eq]
    refine List.mem_cons_of_mem _ ?_
    rw [show [goalTwoProofs].map iterNodes = [iterNodes goalTwoProofs] from rfl]
    refine List.mem_flatten.mpr ⟨iterNodes goalTwoProofs, List.mem_cons_self _ _, ?_⟩
    rw [show goalTwoProofs = Node.mk "goal" [("name", "G1")] [proofA, proofB] from rfl,
        iterNodes_eq]
    exact List.mem_cons_self _ _
  have hle := hall goalTwoProofs hmem rfl
  have h2 : goalTwoProofs.children.countP isTP = 2 := by decide
  rw [h2] at hle
  exact absurd hle (by decide)

/-- Claim C3, amended.  In the tree returned by the Tree Pruner (rooted at a
non-`goal` element, as every session tree is), every Goal node has at most
one child tagged `Transf`, and a Goal node that retains some `Transf` child
has exactly one child tagged `Transf` or `Proof`.  (A Goal with only `Proof`
children keeps them all, so "at most one `Transf`/`Proof` child" does not
hold in general — see the counterexample.) -/
theorem pruner_goal_tp_invariant (root : Node) (hroot : root.tag ≠ "goal") :
    ∀ m ∈ iterNodes (clean_proof_tree root), m.tag = "goal" →
      m.children.countP isTransf ≤ 1 ∧
      (m.children.any isTransf = true → m.children.countP isTP = 1) := by
  cases root with
  | mk t a cs =>
    intro m hm htag
    rw [show clean_proof_tree (Node.mk t a cs) = Node.mk t a (cs.map cleanNode) from rfl,
        iterNodes_eq] at hm
    cases hm with
    | head => exact absurd htag hroot
    | tail _ hm' =>
      obtain ⟨li, hli, hmli⟩ := List.mem_flatten.mp hm'
      obtain ⟨ch, hch, rfl⟩ := List.mem_map.mp hli
      obtain ⟨c, hc, rfl⟩ := List.mem_map.mp hch
      obtain ⟨k, rfl⟩ := mem_iterNodes_cleanNode c m hmli
      cases k with
      | mk tk ak csk =>
        have htk : tk = "goal" := by
          rw [tag_cleanNode] at htag
          exact htag
        subst htk
        rw [cleanNode_eq, if_pos (by rfl : ("goal" == "goal") = true)]
        exact pruneGoalChildren_countP (csk.map cleanNode)

/-- Witness for `pruner_goal_tp_invariant`. -/
theorem pruner_goal_tp_invariant_witness :
    rootWithTransf.tag ≠ "goal" ∧
    cleanNode goalWithTransf ∈ iterNodes (clean_proof_tree rootWithTransf) ∧
    (cleanNode goalWithTransf).tag = "goal" ∧
    ((cleanNode goalWithTransf).children.countP isTransf ≤ 1 ∧
     ((cleanNode goalWithTransf).children.any isTransf = true →
       (cleanNode goalWithTransf).children.countP isTP = 1)) := by
  have hclean : cleanNode goalWithTransf = Node.mk "goal" [("name", "G2")] [transfA, labelA] := by
    simp [goalWithTransf, proofA, transfA, transfB, labelA, cleanNode_eq,
          pruneGoalChildren, child_to_keep, scanGoalChildren, isTransf, isProof, isTP,
          Node.tag, removeNonCanonical, Option.orElse]
  have hmem : cleanNode goalWithTransf ∈ iterNodes (clean_proof_tree rootWithTransf) := by
    rw [show clean_proof_tree rootWithTransf
          = Node.mk "why3session" [] [cleanNode goalWithTransf] from rfl,
        iterNodes_eq]
    refine List.mem_cons_of_mem _ ?_
    rw [show [cleanNode goalWithTransf].map iterNodes = [iterNodes (cleanNode goalWithTransf)] from rfl]
    refine List.mem_flatten.mpr ⟨iterNodes (cleanNode goalWithTransf), List.mem_cons_self _ _, ?_⟩
    rw [hclean, iterNodes_eq]
    exact List.mem_cons_self _ _
  refine ⟨by decide, hmem, by rw [hclean]; rfl,
    pruner_goal_tp_invariant rootWithTransf (by decide) _ hmem (by rw [hclean]; rfl)⟩

/-- Claim C4.  The Tree Pruner is idempotent: applying `clean_proof_tree`
twice yields the same tree as applying it once. -/
theorem pruner_idempotent (root : Node) :
    clean_proof_tree (clean_proof_tree root) = clean_proof_tree root := by
  cases root with
  | mk t a cs =>
    show Node.mk t a ((cs.map cleanNode).map cleanNode) = Node.mk t a (cs.map cleanNode)
    rw [List.map_map]
    exact congrArg (Node.mk t a) (List.map_congr_left (fun c _ => cleanNode_idem c))

/-- Claim C5.  The Tree Pruner removes only `Transf`/`Proof` children: for
every node, the tag and all attribute values are unchanged, the surviving
children are a sublist (same relative order) of the original children (each
recursively pruned), and every removed child was tagged `proof` or `transf`.
(`clean_proof_tree` applies this per-node rewriting to every subtree of the
root and leaves the root's tag and attributes untouched.) -/
theorem pruner_frame (n : Node) :
    (cleanNode n).tag = n.tag ∧ (cleanNode n).attrs = n.attrs ∧
    ∃ kept : List Node, kept.Sublist n.children ∧
      (cleanNode n).children = kept.map cleanNode ∧
      ∀ c ∈ n.children, c ∉ kept → isTP c = true := by
  cases n with
  | mk t a cs =>
    refine ⟨tag_cleanNode _, attrs_cleanNode _, ?_⟩
    by_cases ht : (t == "goal") = true
    · refine ⟨pruneGoalChildren cs, pruneGoalChildren_sublist cs, ?_, ?_⟩
      · rw [cleanNode_eq, if_pos ht]
        show pruneGoalChildren (cs.map cleanNode) = _
        exact pruneGoalChildren_map_cleanNode cs
      · intro c hc hnk
        by_contra htp
        rw [Bool.not_eq_true] at htp
        exact hnk (mem_pruneGoalChildren_of_not_tp cs c htp hc)
    · refine ⟨cs, List.Sublist.refl cs, ?_, fun c hc hnk => absurd hc hnk⟩
      rw [cleanNode_eq, if_neg ht]
      rfl

/-- Witness for `pruner_frame`. -/
theorem pruner_frame_witness :
    (cleanNode goalWithTransf).tag = goalWithTransf.tag ∧
    (cleanNode goalWithTransf).attrs = goalWithTransf.attrs ∧
    ∃ kept : List Node, kept.Sublist goalWithTransf.children ∧
      (cleanNode goalWithTransf).children = kept.map cleanNode ∧
      ∀ c ∈ goalWithTransf.children, c ∉ kept → isTP c = true :=
  pruner_frame goalWithTransf

/-! ## Claim about the Coverage Auditor -/

/-- Claim C6.  `check_whyml_files_proven` PASSes (exit status 0, empty
sub-lists) exactly when the set of `.mlw` `path` names in the session equals
the set of `.mlw` names in the directory listing minus the hard-coded
exemption `twoHonestParties.mlw`; otherwise it FAILs with exit status 1
after reporting the session-minus-directory and directory-minus-session
sub-lists, of which at least one is non-empty (an empty sub-list prints
nothing, modelled by the empty set). -/
theorem coverage_pass_iff (root : Node) (listing : List String) :
    ((check_whyml_files_proven root listing).exitCode = 0 ↔
      extract_mlw_filenames_from_session root = relevantDirFilenames listing) ∧
    ((check_whyml_files_proven root listing).exitCode ≠ 0 →
      (check_whyml_files_proven root listing).exitCode = 1 ∧
      (check_whyml_files_proven root listing).passOk = false ∧
      (check_whyml_files_proven root listing).extraInSession
        = extract_mlw_filenames_from_session root \ relevantDirFilenames listing ∧
      (check_whyml_files_proven root listing).extraInDirectory
        = relevantDirFilenames listing \ extract_mlw_filenames_from_session root ∧
      ¬((check_whyml_files_proven root listing).extraInSession = ∅ ∧
        (check_whyml_files_proven root listing).extraInDirectory = ∅)) := by
  unfold check_whyml_files_proven
  by_cases h : extract_mlw_filenames_from_session root = relevantDirFilenames listing
  · rw [if_pos h]
    exact ⟨⟨fun _ => h, fun _ => rfl⟩, fun hne => absurd rfl hne⟩
  · rw [if_neg h]
    refine ⟨⟨fun h0 => absurd h0 Nat.one_ne_zero, fun heq => absurd heq h⟩, fun _ => ?_⟩
    refine ⟨rfl, rfl, rfl, rfl, ?_⟩
    intro h12
    obtain ⟨h1, h2⟩ := h12
    apply h
    exact Finset.Subset.antisymm
      (Finset.sdiff_eq_empty_iff_subset.mp h1)
      (Finset.sdiff_eq_empty_iff_subset.mp h2)

/-- Witness for `coverage_pass_iff`: a session referencing `a.mlw` against a
directory containing `b.mlw` (plus the exemption and a non-`.mlw` file)
FAILs with both sub-lists non-empty. -/
theorem coverage_pass_iff_witness :
    (check_whyml_files_proven sessionRootA listingA).exitCode = 1 ∧
    (check_whyml_files_proven sessionRootA listingA).passOk = false ∧
    (check_whyml_files_proven sessionRootA listingA).extraInSession
      = extract_mlw_filenames_from_session sessionRootA \ relevantDirFilenames listingA ∧
    (check_whyml_files_proven sessionRootA listingA).extraInDirectory
      = relevantDirFilenames listingA \ extract_mlw_filenames_from_session sessionRootA ∧
    ¬((check_whyml_files_proven sessionRootA listingA).extraInSession = ∅ ∧
      (check_whyml_files_proven sessionRootA listingA).extraInDirectory = ∅) := by
  have hiter : iterNodes sessionRootA
      = [Node.mk "why3session" [] [Node.mk "file" [] [Node.mk "path" [("name", "a.mlw")] []]],
         Node.mk "file" [] [Node.mk "path" [("name", "a.mlw")] []],
         Node.mk "path" [("name", "a.mlw")] []] := by
    simp [sessionRootA, pathNodeA, iterNodes_eq]
  have hses : extract_mlw_filenames_from_session sessionRootA = {"a.mlw"} := by
    unfold extract_mlw_filenames_from_session
    rw [hiter]
    decide
  have hne : extract_mlw_filenames_from_session sessionRootA ≠ relevantDirFilenames listingA := by
    rw [hses]
    decide
  have hfail : (check_whyml_files_proven sessionRootA listingA).exitCode ≠ 0 := by
    unfold check_whyml_files_proven
    rw [if_neg hne]
    decide
  exact (coverage_pass_iff sessionRootA listingA).2 hfail

/-! ## Claims about Separation Check A -/

/-- Claim C7.  Check A (Python `check_lemma_axiom_in_lemmas`) scans the
comment-stripped file line by line; with the current module tracked as the
most recent line matching a module declaration at line start, a line
containing a lemma-declaration or axiom-declaration token produces exactly
one error if and only if there is a current module whose name does not end
in `Lemmas` or `Spec` (see `lineError`; a token line before any module
declaration produces no error, which C10 records separately).  The stateful
scan equals the declarative per-line reading. -/
theorem checkA_errors_characterization (path content : String) :
    check_lemma_axm_in_lemmas path content
      = declarativeErrsA path (splitLinesCh (removeCommentsL content.data)) := by
  unfold check_lemma_axm_in_lemmas declarativeErrsA
  rw [scanA_eq_declarative]
  apply List.filterMap_congr
  intro i _
  rw [Option.or_none]

/-- Claim C10.  If every line (of the comment-stripped content) containing a
lemma/axiom token strictly precedes every line matching a module
declaration, Check A reports no error at all: before the first module
declaration `current_module` is `None` and the error branch is never
taken. -/
theorem checkA_empty_when_tokens_precede_modules (path content : String)
    (h : ∀ i, i < (splitLinesCh (removeCommentsL content.data)).length →
         ∀ j, j < (splitLinesCh (removeCommentsL content.data)).length →
         containsTok ((splitLinesCh (removeCommentsL content.data)).getD i []) = true →
         (matchModuleDecl ((splitLinesCh (removeCommentsL content.data)).getD j [])).isSome = true →
         i < j) :
    check_lemma_axm_in_lemmas path content = [] := by
  unfold check_lemma_axm_in_lemmas
  rw [scanA_eq_declarative]
  apply List.filterMap_eq_nil_iff.mpr
  intro i hi
  rw [List.mem_range] at hi
  rw [Option.or_none]
  unfold lineError
  by_cases htok : containsTok ((splitLinesCh (removeCommentsL content.data)).getD i []) = true
  · rw [if_pos htok]
    have hnone : currentModuleAt (splitLinesCh (removeCommentsL content.data)) i = none := by
      unfold currentModuleAt
      apply List.findSome?_eq_none_iff.mpr
      intro x hx
      rw [List.mem_reverse] at hx
      obtain ⟨j, hj, hxj⟩ := List.getElem_of_mem hx
      have hjlen : j < (splitLinesCh (removeCommentsL content.data)).length := by
        have := hj
        rw [List.length_take] at this
        omega
      have hji : j < i + 1 := by
        have := hj
        rw [List.length_take] at this
        omega
      rw [List.getElem_take] at hxj
      cases hmx : matchModuleDecl x with
      | none => rfl
      | some m =>
        exfalso
        have hsome : (matchModuleDecl ((splitLinesCh (removeCommentsL content.data)).getD j [])).isSome = true := by
          rw [List.getD_eq_getElem _ _ hjlen, hxj, hmx]
          rfl
        have := h i hi j hjlen htok hsome
        omega
    rw [hnone]
  · rw [if_neg htok]

/-- Witness for `checkA_empty_when_tokens_precede_modules`: in `contentC10`
the only token line is line 0 and the only module-declaration line is
line 1. -/
theorem checkA_empty_witness :
    (∀ i, i < (splitLinesCh (removeCommentsL contentC10.data)).length →
       ∀ j, j < (splitLinesCh (removeCommentsL contentC10.data)).length →
       containsTok ((splitLinesCh (removeCommentsL contentC10.data)).getD i []) = true →
       (matchModuleDecl ((splitLinesCh (removeCommentsL contentC10.data)).getD j [])).isSome = true →
       i < j) ∧
    check_lemma_axm_in_lemmas "counter.mlw" contentC10 = [] :=
  ⟨by decide, checkA_empty_when_tokens_precede_modules "counter.mlw" contentC10 (by decide)⟩

/-! ## Claims about Separation Check B -/

/-- Claim C8, counterexample.  In `contentC8` the Lemmas module
`LemmasAbcLemmas` is declared, and the ascription
`module LemmasAbcProofs : LemmasAbcLemmas` — whose name is exactly the
result of replacing the `Lemmas` SUFFIX with `Proofs` — is present and
ascribed to exactly that module.  The claim therefore demands no error, yet
`check_proofs_for_lemmas` reports one: `str.replace` replaces EVERY
occurrence of `Lemmas`, looks up `ProofsAbcProofs`, and finds nothing. -/
theorem checkB_suffix_replacement_counterexample :
    findLemmasModules contentC8 = ["LemmasAbcLemmas"] ∧
    findProofsPairs contentC8 = [("LemmasAbcProofs", "LemmasAbcLemmas")] ∧
    check_proofs_for_lemmas "conv.mlw" contentC8
      = ["Error in conv.mlw: No corresponding Proofs module for Lemmas module 'LemmasAbcLemmas'"] :=
  ⟨by decide, by decide, by decide⟩

/-- The Check B error message determines the offending module name. -/
theorem errB_inj (path a b : String) (h : errB path a = errB path b) : a = b := by
  unfold errB at h
  have hd := congrArg String.data h
  simp only [String.data_append, List.append_assoc] at hd
  have h1 := List.append_cancel_left hd
  have h2 := List.append_cancel_left h1
  have h3 := List.append_cancel_left h2
  have h4 := List.append_cancel_right h3
  exact congrArg String.mk h4

/-- Claim C8, amended.  For every module name `m` in the `findall` result for
`module\s+(\w+Lemmas)\b`, an error is reported if and only if the name
obtained by replacing EVERY occurrence of `Lemmas` in `m` with `Proofs`
(Python `str.replace`) is not mapped to exactly `m` by the file's ascription
declarations `module <X>Proofs : <Y>Lemmas` (read as a dictionary in which a
later declaration of the same Proofs name overrides an earlier one). -/
theorem checkB_error_iff_no_dict_pairing (path content m : String)
    (hm : m ∈ findLemmasModules content) :
    errB path m ∈ check_proofs_for_lemmas path content ↔
      proofsDictLookup (findProofsPairs content) (pyReplace m "Lemmas" "Proofs") ≠ some m := by
  unfold check_proofs_for_lemmas
  constructor
  · intro hmem
    obtain ⟨n, hn, hf⟩ := List.mem_filterMap.mp hmem
    by_cases hcond : proofsDictLookup (findProofsPairs content) (pyReplace n "Lemmas" "Proofs") = some n
    · rw [if_pos hcond] at hf
      exact absurd hf (by simp)
    · rw [if_neg hcond] at hf
      injection hf with hf
      have hnm : n = m := errB_inj path n m hf
      subst hnm
      exact hcond
  · intro hcond
    apply List.mem_filterMap.mpr
    refine ⟨m, hm, ?_⟩
    rw [if_neg hcond]

/-- Witness for `checkB_error_iff_no_dict_pairing`: `contentC8w` declares
`module FooLemmas` and no Proofs module, so the error is reported. -/
theorem checkB_error_iff_no_dict_pairing_witness :
    ("FooLemmas" ∈ findLemmasModules contentC8w) ∧
    (errB "w.mlw" "FooLemmas" ∈ check_proofs_for_lemmas "w.mlw" contentC8w ↔
      proofsDictLookup (findProofsPairs contentC8w) (pyReplace "FooLemmas" "Lemmas" "Proofs")
        ≠ some "FooLemmas") :=
  ⟨by decide, checkB_error_iff_no_dict_pairing "w.mlw" contentC8w "FooLemmas" (by decide)⟩

/-! ## Claims about comment stripping (Check A preprocessing) -/

theorem rcAux_cons_of_not_open (f : Nat) (c : Char) (rest : List Char)
    (h : ¬(c = '(' ∧ rest.head? = some '*')) :
    rcAux (f + 1) (c :: rest) = c :: rcAux f rest := by
  simp only [rcAux]
  rw [if_neg h]

theorem rcAux_cons_open (f : Nat) (c : Char) (rest : List Char) (j : Nat)
    (h : c = '(' ∧ rest.head? = some '*') (hj : findCloseIdx rest.tail = some j) :
    rcAux (f + 1) (c :: rest) = rcAux f (rest.tail.drop (j + 2)) := by
  simp only [rcAux]
  rw [if_pos h, hj]

theorem rcAux_cons_open_none (f : Nat) (c : Char) (rest : List Char)
    (h : c = '(' ∧ rest.head? = some '*') (hj : findCloseIdx rest.tail = none) :
    rcAux (f + 1) (c :: rest) = c :: rest := by
  simp only [rcAux]
  rw [if_pos h, hj]

/-- The scan is fuel-insensitive once the fuel covers the text length. -/
theorem rcAux_fuel_inv : ∀ f g s, s.length ≤ f → s.length ≤ g → rcAux f s = rcAux g s := by
  intro f
  induction f with
  | zero =>
    intro g s hf _
    have hs : s = [] := List.eq_nil_of_length_eq_zero (Nat.le_zero.mp hf)
    subst hs
    cases g <;> rfl
  | succ f ih =>
    intro g s hf hg
    cases s with
    | nil => cases g <;> rfl
    | cons c rest =>
      cases g with
      | zero =>
        simp only [List.length_cons] at hg
        omega
      | succ g =>
        by_cases hc : (c = '(' ∧ rest.head? = some '*')
        · cases hj : findCloseIdx rest.tail with
          | none =>
            rw [rcAux_cons_open_none f c rest hc hj, rcAux_cons_open_none g c rest hc hj]
          | some j =>
            rw [rcAux_cons_open f c rest j hc hj, rcAux_cons_open g c rest j hc hj]
            have hlen : (rest.tail.drop (j + 2)).length ≤ rest.length := by
              rw [List.length_drop, List.length_tail]
              omega
            simp only [List.length_cons] at hf hg
            exact ih g _ (by omega) (by omega)
        · rw [rcAux_cons_of_not_open f c rest hc, rcAux_cons_of_not_open g c rest hc]
          simp only [List.length_cons] at hf hg
          exact congrArg (fun x => c :: x) (ih g rest (by omega) (by omega))

/-- If `b` contains no close marker, the first close marker of
`b ++ "*)" ++ t` is the appended one. -/
theorem findCloseIdx_boundary (b : List Char) (t : List Char)
    (hb : containsSub "*)".data b = false) :
    findCloseIdx (b ++ '*' :: ')' :: t) = some b.length := by
  induction b with
  | nil =>
    show findCloseIdx ('*' :: ')' :: t) = some 0
    unfold findCloseIdx
    rw [if_pos ⟨rfl, rfl⟩]
  | cons c b' ih =>
    have hsplit : ("*)".data).isPrefixOf (c :: b') = false ∧ containsSub "*)".data b' = false := by
      unfold containsSub at hb
      rw [Bool.or_eq_false_iff] at hb
      exact hb
    obtain ⟨hpre, hrest⟩ := hsplit
    show findCloseIdx (c :: (b' ++ '*' :: ')' :: t)) = some (b'.length + 1)
    unfold findCloseIdx
    rw [if_neg ?hneg, ih hrest]
    · rfl
    case hneg =>
      intro hcond
      obtain ⟨hc, hh⟩ := hcond
      cases b' with
      | nil => exact absurd (Option.some.inj hh) (by decide)
      | cons x b'' =>
        have hx : x = ')' := Option.some.inj hh
        subst hc
        subst hx
        have hpt : ("*)".data).isPrefixOf ('*' :: ')' :: b'') = true := by
          simp [List.isPrefixOf]
        rw [hpre] at hpt
        exact Bool.false_ne_true hpt

/-- Left-to-right scanning: with `a` free of open markers and `b` free of
close markers, the comment `(* b *)` is removed exactly, across line
boundaries and ignoring any open marker inside `b`, and scanning resumes
after the close marker. -/
theorem rcAux_strips (a : List Char) : ∀ (f : Nat) (b rest : List Char),
    containsSub "(*".data a = false →
    containsSub "*)".data b = false →
    (a ++ '(' :: '*' :: (b ++ '*' :: ')' :: rest)).length ≤ f →
    rcAux f (a ++ '(' :: '*' :: (b ++ '*' :: ')' :: rest)) = a ++ removeCommentsL rest := by
  induction a with
  | nil =>
    intro f b rest _ hb hf
    cases f with
    | zero =>
      exfalso
      simp only [List.nil_append, List.length_cons] at hf
      omega
    | succ f =>
      show rcAux (f + 1) ('(' :: ('*' :: (b ++ '*' :: ')' :: rest))) = [] ++ removeCommentsL rest
      rw [rcAux_cons_open f '(' ('*' :: (b ++ '*' :: ')' :: rest)) b.length ⟨rfl, rfl⟩
          (findCloseIdx_boundary b rest hb)]
      have hdrop : (b ++ '*' :: ')' :: rest).drop (b.length + 2) = rest := by
        rw [show b ++ '*' :: ')' :: rest = (b ++ ['*', ')']) ++ rest by simp,
            show b.length + 2 = (b ++ ['*', ')']).length by simp]
        exact List.drop_left _ _
      rw [show ('*' :: (b ++ '*' :: ')' :: rest)).tail = b ++ '*' :: ')' :: rest from rfl, hdrop,
          List.nil_append]
      apply rcAux_fuel_inv
      · simp only [List.nil_append, List.length_cons, List.length_append] at hf
        omega
      · exact Nat.le_refl _
  | cons c a' ih =>
    intro f b rest ha hb hf
    have hsplit : ("(*".data).isPrefixOf (c :: a') = false ∧ containsSub "(*".data a' = false := by
      unfold containsSub at ha
      rw [Bool.or_eq_false_iff] at ha
      exact ha
    obtain ⟨hpre, hrest⟩ := hsplit
    cases f with
    | zero =>
      exfalso
      simp only [List.cons_append, List.length_cons] at hf
      omega
    | succ f =>
      show rcAux (f + 1) (c :: (a' ++ '(' :: '*' :: (b ++ '*' :: ')' :: rest)))
          = (c :: a') ++ removeCommentsL rest
      rw [rcAux_cons_of_not_open f c _ ?hno]
      · rw [ih f b rest hrest hb ?hlen]
        · rfl
        case hlen =>
          simp only [List.cons_append, List.length_cons] at hf
          omega
      case hno =>
        intro hcond
        obtain ⟨hc, hh⟩ := hcond
        cases a' with
        | nil => exact absurd (Option.some.inj hh) (by decide)
        | cons x a'' =>
          have hx : x = '*' := Option.some.inj hh
          subst hc
          subst hx
          have hpt : ("(*".data).isPrefixOf ('(' :: '*' :: a'') = true := by
            simp [List.isPrefixOf]
          rw [hpre] at hpt
          exact Bool.false_ne_true hpt

/-- Claim C9, amended.  `remove_comments` — applied by Check A only; Check B
matches the raw text, see the counterexample — removes each block comment
from an open marker `(*` to the NEAREST following close marker `*)` (the
regex `\(\*.*?\*\)` is lazy, not greedy), across line boundaries and without
nesting: an open marker inside the comment body is swallowed. -/
theorem remove_comments_lazy_strip (a b rest : List Char)
    (ha : containsSub "(*".data a = false)
    (hb : containsSub "*)".data b = false) :
    removeCommentsL (a ++ "(*".data ++ b ++ "*)".data ++ rest)
      = a ++ removeCommentsL rest := by
  rw [show a ++ "(*".data ++ b ++ "*)".data ++ rest
        = a ++ '(' :: '*' :: (b ++ '*' :: ')' :: rest) by simp]
  exact rcAux_strips a _ b rest ha hb (Nat.le_refl _)

/-- Witness for `remove_comments_lazy_strip`: the comment body contains a
nested open marker and a line break; the prefix and the tail survive. -/
theorem remove_comments_lazy_strip_witness :
    (containsSub "(*".data "use int.Int ".data = false) ∧
    (containsSub "*)".data " dead (* code\n more ".data = false) ∧
    removeCommentsL ("use int.Int ".data ++ "(*".data ++ " dead (* code\n more ".data
        ++ "*)".data ++ " end".data)
      = "use int.Int ".data ++ removeCommentsL " end".data :=
  ⟨by decide, by decide, remove_comments_lazy_strip _ _ _ (by decide) (by decide)⟩

/-- Claim C9, counterexample.  The claim says comments are stripped before ANY
pattern matching, so tokens inside comments never produce errors.  But
`check_proofs_for_lemmas` never strips comments: in `contentC9` the whole
text is one block comment (stripping it yields the empty string), yet the
commented-out `module FooLemmas` is collected and produces an error. -/
theorem checkB_reads_comments_counterexample :
    remove_comments contentC9 = "" ∧
    check_proofs_for_lemmas "commented.mlw" contentC9
      = ["Error in commented.mlw: No corresponding Proofs module for Lemmas module 'FooLemmas'"] :=
  ⟨by decide, by decide⟩
